import Mathlib

/-!
Verification of the Hierarchical Risk Parity optimizer (`modfin/PortOptm/hrp.py`).

Shallow embedding: real numbers of the program are modelled as `ℚ` (exact
arithmetic), pandas Series of weights as functions `ℕ → ℚ`, lists of cluster
indices as `List ℕ`, and the scipy linkage output as a `List (ℕ × ℕ)` of
(left child id, right child id) records.  Fallible operations (a division
whose denominator can be zero, an out-of-bounds access) are embedded with
`Option`.
-/

namespace HRP

/-! ### Quasi-diagonalization (`_getQuasiDiag`, hrp.py lines 69-75)

The Python function recurses on node ids of the merge tree.  Recursion is
embedded with explicit fuel; since every well-formed tree has children with
strictly smaller node ids than their parent, fuel `currIndex + 1` always
suffices (proved below in `getQuasiDiagF_congr`). -/

/-- Fueled traversal of the merge tree.  `cluster` is the list of merge
records (left child id, right child id); record `k` describes internal node
`numAssets + k`.  A leaf id (`< numAssets`) yields a singleton; an internal
id looks up its record and concatenates the traversals of its children. -/
def getQuasiDiagF (cluster : List (ℕ × ℕ)) (numAssets : ℕ) : ℕ → ℕ → List ℕ
  | 0, _ => []
  | fuel + 1, currIndex =>
    if currIndex < numAssets then [currIndex]
    else
      match cluster[currIndex - numAssets]? with
      | none => []
      | some lr =>
          getQuasiDiagF cluster numAssets fuel lr.1 ++
          getQuasiDiagF cluster numAssets fuel lr.2

/-- `_getQuasiDiag(cluster, num_assets, curr_index)` (hrp.py lines 69-75). -/
def getQuasiDiag (cluster : List (ℕ × ℕ)) (numAssets currIndex : ℕ) : List ℕ :=
  getQuasiDiagF cluster numAssets (currIndex + 1) currIndex

/-- All child ids appearing in the merge records, in record order. -/
def childrenList (cluster : List (ℕ × ℕ)) : List ℕ :=
  cluster.flatMap fun p => [p.1, p.2]

/-- Well-formedness of a merge tree exactly as claim C2 states it:
`n - 1` records over `n ≥ 2` leaves, and each record's child ids are valid
node ids strictly below the record's own id `n + k`. -/
structure WellFormedTree (cluster : List (ℕ × ℕ)) (n : ℕ) : Prop where
  two_le : 2 ≤ n
  length_eq : cluster.length = n - 1
  child_lt : ∀ k (h : k < cluster.length),
    (cluster.get ⟨k, h⟩).1 < n + k ∧ (cluster.get ⟨k, h⟩).2 < n + k

/-- Full well-formedness of a scipy merge tree: in addition to
`WellFormedTree`, every node id other than the root is consumed as a child
by exactly one record (each merge combines two previously unconsumed
clusters). -/
structure StrictWellFormed (cluster : List (ℕ × ℕ)) (n : ℕ)
    extends WellFormedTree cluster n : Prop where
  child_once : ∀ i, i < 2 * n - 2 → (childrenList cluster).count i = 1

/-! ### Cluster variance (`_getIVP` lines 85-88, `_getClusterVar` lines 77-83) -/

/-- `_getIVP(cov)` (hrp.py lines 85-88) restricted to the sub-matrix of the
cluster `c`: inverse of the diagonal, normalized by its sum. -/
def getIVP (cov : ℕ → ℕ → ℚ) (c : List ℕ) : List ℚ :=
  let ivp := c.map fun i => 1 / cov i i
  ivp.map fun x => x * (1 / ivp.sum)

/-- Modelled from the spec: `PortfolioMetrics.ExpectedVariance` (imported
from `modfin.utils`, source not in the repository slice) is, per spec §4.2,
the quadratic form `wᵗ·Σ·w` of the weights over the restricted risk matrix. -/
def quadForm (cov : ℕ → ℕ → ℚ) (c : List ℕ) (w : List ℚ) : ℚ :=
  ((c.zip w).map fun iw =>
    ((c.zip w).map fun jw => iw.2 * cov iw.1 jw.1 * jw.2).sum).sum

/-- `_getClusterVar(covariance, cluster_indices)` (hrp.py lines 77-83). -/
def getClusterVar (cov : ℕ → ℕ → ℚ) (c : List ℕ) : ℚ :=
  quadForm cov c (getIVP cov c)

/-! ### Recursive bisection (`_getRecBipart`, hrp.py lines 90-120) -/

/-- One bisection pass (hrp.py lines 99-102): every cluster with more than
one member is replaced by its two contiguous halves `c[0 : len//2]` and
`c[len//2 : len]`; clusters of size ≤ 1 are dropped. -/
def bisect (cs : List (List ℕ)) : List (List ℕ) :=
  cs.flatMap fun c =>
    if 1 < c.length then [c.take (c.length / 2), c.drop (c.length / 2)] else []

/-- The pairing loop (hrp.py lines 104-116): clusters are taken two at a
time in production order; the allocation factor
`1 - var_left / (var_left + var_right)` scales the weights of the left
cluster, its complement those of the right.  A zero denominator makes the
float division produce no valid number (`none`); a leftover odd element
would be an out-of-bounds access at `subcluster + 1` (`none`). -/
def applyPairs? (cov : ℕ → ℕ → ℚ) :
    List (List ℕ) → (ℕ → ℚ) → Option (ℕ → ℚ)
  | l :: r :: rest, w =>
    let vl := getClusterVar cov l
    let vr := getClusterVar cov r
    if vl + vr = 0 then none
    else
      let a := 1 - vl / (vl + vr)
      applyPairs? cov rest fun i =>
        if i ∈ l then w i * a else if i ∈ r then w i * (1 - a) else w i
  | [_], _ => none
  | [], w => some w

/-- Termination measure for the `while clustered_alphas` loop: a cluster of
length `m` contributes `3 ^ m`. -/
def bisectMeasure (cs : List (List ℕ)) : ℕ :=
  (cs.map fun c => 3 ^ c.length).sum

theorem bisectMeasure_append (a b : List (List ℕ)) :
    bisectMeasure (a ++ b) = bisectMeasure a + bisectMeasure b := by
  simp [bisectMeasure]

theorem bisect_cons (c : List ℕ) (cs : List (List ℕ)) :
    bisect (c :: cs) = bisect [c] ++ bisect cs := by
  simp [bisect]

theorem bisectMeasure_head_lt (c : List ℕ) :
    bisectMeasure (bisect [c]) < 3 ^ c.length := by
  by_cases h : 1 < c.length
  · simp only [bisect, List.flatMap_cons, List.flatMap_nil, List.append_nil, if_pos h]
    simp only [bisectMeasure, List.map_cons, List.map_nil, List.sum_cons,
      List.sum_nil, add_zero]
    rw [List.length_take, List.length_drop]
    have h2 : 2 ≤ c.length := h
    have hmin : min (c.length / 2) c.length = c.length / 2 := by omega
    rw [hmin]
    have ha : 3 ^ (c.length / 2) ≤ 3 ^ (c.length - 1) :=
      Nat.pow_le_pow_right (by norm_num) (by omega)
    have hb : 3 ^ (c.length - c.length / 2) ≤ 3 ^ (c.length - 1) :=
      Nat.pow_le_pow_right (by norm_num) (by omega)
    have hc : 3 ^ (c.length - 1) * 3 ≤ 3 ^ c.length := by
      rw [← pow_succ]
      exact Nat.pow_le_pow_right (by norm_num) (by omega)
    have hpos : 0 < (3 : ℕ) ^ (c.length - 1) := Nat.pos_pow_of_pos _ (by norm_num)
    omega
  · simp only [bisect, List.flatMap_cons, List.flatMap_nil, List.append_nil, if_neg h]
    simp only [bisectMeasure, List.map_nil, List.sum_nil]
    positivity

theorem bisectMeasure_le (cs : List (List ℕ)) :
    bisectMeasure (bisect cs) ≤ bisectMeasure cs := by
  induction cs with
  | nil => simp [bisect, bisectMeasure]
  | cons c cs ih =>
    rw [bisect_cons, bisectMeasure_append]
    have h1 := bisectMeasure_head_lt c
    have h3 : bisectMeasure (c :: cs) = 3 ^ c.length + bisectMeasure cs := by
      simp [bisectMeasure]
    omega

theorem bisectMeasure_lt (cs : List (List ℕ)) (hcs : cs ≠ []) :
    bisectMeasure (bisect cs) < bisectMeasure cs := by
  cases cs with
  | nil => exact absurd rfl hcs
  | cons c cs =>
    rw [bisect_cons, bisectMeasure_append]
    have h1 := bisectMeasure_head_lt c
    have h2 := bisectMeasure_le cs
    have h3 : bisectMeasure (c :: cs) = 3 ^ c.length + bisectMeasure cs := by
      simp [bisectMeasure]
    omega

/-- The `while clustered_alphas` loop of `_getRecBipart` (hrp.py
lines 97-116): bisect, pair up, rescale, repeat until no clusters remain. -/
def recLoop? (cov : ℕ → ℕ → ℚ) (cs : List (List ℕ)) (w : ℕ → ℚ) :
    Option (ℕ → ℚ) :=
  if h : cs = [] then some w
  else
    match applyPairs? cov (bisect cs) w with
    | none => none
    | some w₁ => recLoop? cov (bisect cs) w₁
termination_by bisectMeasure cs
decreasing_by exact bisectMeasure_lt cs h

/-- `_getRecBipart(covariance_matrix, assets, ordered_indices)` (hrp.py
lines 90-120): all weights start at 1 and the bisection loop runs on the
single initial cluster `ordered`. -/
def getRecBipart? (cov : ℕ → ℕ → ℚ) (ordered : List ℕ) : Option (ℕ → ℚ) :=
  recLoop? cov [ordered] fun _ => 1

/-- One level of recursive bisection written from the spec's words (§4.2,
step 3): each cluster with more than one member is split at its midpoint
into halves `[0, len//2)` and `[len//2, len)`; for each such parent, in
production order, the allocation factor `a = 1 - var_left / (var_left +
var_right)` scales the left half's weights and `1 - a` the right half's. -/
def specLevel? (cov : ℕ → ℕ → ℚ) :
    List (List ℕ) → (ℕ → ℚ) → Option (ℕ → ℚ)
  | [], w => some w
  | c :: cs, w =>
    if 1 < c.length then
      let l := c.take (c.length / 2)
      let r := c.drop (c.length / 2)
      let vl := getClusterVar cov l
      let vr := getClusterVar cov r
      if vl + vr = 0 then none
      else
        let a := 1 - vl / (vl + vr)
        specLevel? cov cs fun i =>
          if i ∈ l then w i * a else if i ∈ r then w i * (1 - a) else w i
    else specLevel? cov cs w

/-- Instrumentation of the pairing loop of `_getRecBipart`: the sizes of
each adjacent pair of clusters it processes together with the allocation
factor it computes for them (hrp.py lines 104-112). -/
def pairFactors (cov : ℕ → ℕ → ℚ) : List (List ℕ) → List (ℕ × ℕ × ℚ)
  | l :: r :: rest =>
    (l.length, r.length,
      1 - getClusterVar cov l / (getClusterVar cov l + getClusterVar cov r)) ::
      pairFactors cov rest
  | _ => []

/-- Instrumentation of the whole bisection loop: every (left size, right
size, allocation factor) triple produced across all levels, in production
order. -/
def loopFactors (cov : ℕ → ℕ → ℚ) (cs : List (List ℕ)) : List (ℕ × ℕ × ℚ) :=
  if cs = [] then []
  else pairFactors cov (bisect cs) ++ loopFactors cov (bisect cs)
termination_by bisectMeasure cs
decreasing_by exact bisectMeasure_lt cs (by assumption)

/-- A diagonal risk matrix with the same variance `σ` for every asset. -/
def diagCov (σ : ℚ) : ℕ → ℕ → ℚ := fun i j => if i = j then σ else 0

/-- A 4-asset risk matrix of two perfectly anti-correlated unit-variance
pairs (assets 0,1 and assets 2,3): both halves of the initial bisection
have cluster variance exactly zero. -/
def cov4 : ℕ → ℕ → ℚ := fun i j =>
  if i = j then 1
  else if (i = 0 ∧ j = 1) ∨ (i = 1 ∧ j = 0) ∨ (i = 2 ∧ j = 3) ∨ (i = 3 ∧ j = 2) then -1
  else 0

/-! ### Constructor validation (`__init__`, hrp.py lines 51-67)

Python strings are embedded as `List Char` so that the case-lowering of
`.lower()` is a plain structural map the kernel can evaluate. -/

/-- Lower-casing of one ASCII character, as Python's `str.lower()` acts on
the names involved here. -/
def lowerChar (c : Char) : Char :=
  if 'A' ≤ c ∧ c ≤ 'Z' then Char.ofNat (c.toNat + 32) else c

/-- Python `str.lower()` over the character-list embedding of strings. -/
def pyLower (s : List Char) : List Char := s.map lowerChar

/-- The risk-metric names accepted at line 56 of hrp.py. -/
def metricNames : List (List Char) :=
  ["variance".toList, "semivariance".toList, "shrinkage".toList,
   "letoidwolf".toList, "oas".toList]

/-- The linkage-method names accepted at line 63 of hrp.py. -/
def methodNames : List (List Char) :=
  ["ward".toList, "single".toList, "average".toList, "complete".toList,
   "median".toList, "weighted".toList, "centroid".toList]

/-- `__init__(RiskMetrics, Method)` (hrp.py lines 51-67): lower-case the
two names, reject each against its list, store the lowered names. -/
def hrpInit (riskMetrics method : List Char) :
    Except (List Char) (List Char × List Char) :=
  if pyLower riskMetrics ∉ metricNames then
    Except.error
      "RiskMetrics must be one of the following: 'Variance', 'Semivariance', 'Shrinkage', 'LetoidWolf' or 'OAS'".toList
  else if pyLower method ∉ methodNames then
    Except.error
      "Method must be one of the following: 'Ward', 'Single', 'Average', 'Complete', 'Median', 'Weighted' or 'Centroid'".toList
  else Except.ok (pyLower riskMetrics, pyLower method)

/-! ### Input validation of `optimize` (hrp.py lines 135-148) -/

/-- The shape facts about `AssetPrices` that the validation block of
`optimize` can observe.  `usableAssets` is the number of asset columns that
survive the return computation and the dropping of all-missing rows and
columns (hrp.py lines 144-148); the validation block never reads it. -/
structure PriceTableShape where
  isDataFrame : Bool
  isDatetimeIndexed : Bool
  usableAssets : ℕ

/-- The validation at the start of `optimize` (hrp.py lines 135-142): the
input must be a DataFrame and its index must be a DatetimeIndex.  No other
property of the input is inspected. -/
def optimizeValidation (t : PriceTableShape) : Except String Unit :=
  if ¬ t.isDataFrame then
    Except.error "Asset Prices must be a Pandas DataFrame!"
  else if ¬ t.isDatetimeIndexed then
    Except.error "Asset Prices must be a Pandas DataFrame index by datetime!"
  else Except.ok ()

/-! ### Instance state and `plot` (hrp.py lines 51-53, 178, 197-219) -/

/-- The attribute state of a `HierarchicalRiskParity` instance: `clusters`
holds `none` for Python `None` (set in `__init__`, line 53) and `some tree`
after `optimize` stored the linkage output (line 178);
`assetNamesAssigned` records whether the attribute `asset_names`, read by
`plot` at line 215, was ever assigned on the instance. -/
structure HRPInstance where
  clusters : Option (List (ℕ × ℕ))
  assetNamesAssigned : Bool

/-- The instance state right after `__init__` (hrp.py line 53). -/
def hrpInitState : HRPInstance :=
  { clusters := none, assetNamesAssigned := false }

/-- The effect of a successful `optimize` run on the instance attributes
(hrp.py line 178): it stores the merge tree in `self.clusters`; no other
attribute is written — in particular `asset_names` is only a local
variable (line 148). -/
def optimizeEffect (s : HRPInstance) (tree : List (ℕ × ℕ)) : HRPInstance :=
  { s with clusters := some tree }

/-- `plot` (hrp.py lines 197-219): raise if `self.clusters` is `None`
(line 207); otherwise the dendrogram call reads `self.asset_names`
(line 215), which is an `AttributeError` when that attribute was never
assigned; only then does rendering succeed. -/
def plotModel (s : HRPInstance) : Except String Unit :=
  match s.clusters with
  | none => Except.error "You must run the Optimize method before plotting"
  | some _ =>
    if ¬ s.assetNamesAssigned then
      Except.error "AttributeError: object has no attribute"
    else Except.ok ()

/-- The instance states reachable through the public interface: a fresh
construction, or any reachable state after a successful `optimize` run
(`plot` writes no attribute). -/
inductive Reachable : HRPInstance → Prop
  | init : Reachable hrpInitState
  | optimized (s : HRPInstance) (tree : List (ℕ × ℕ)) :
      Reachable s → Reachable (optimizeEffect s tree)

/-! ### Post-processing of `optimize` (hrp.py lines 189-195) -/

/-- A value held by the final weight table: a number, the Python string
`'nan'` (written by `Portifolio[Portifolio == 0] = 'nan'`, line 192), or a
real float NaN (the only thing `dropna` removes). -/
inductive Cell where
  | num (q : ℚ)
  | nanStr
  | realNan
  deriving DecidableEq

/-- `round(x, 8)`: round to 8 decimal digits (hrp.py line 190). -/
def round8 (x : ℚ) : ℚ :=
  (round (x * 10 ^ 8) : ℤ) / 10 ^ 8

/-- `dropna(axis="columns")` (hrp.py line 194): only columns holding an
actual float NaN are removed; the Python string `'nan'` is not NaN. -/
def dropnaCols (cells : List Cell) : List Cell :=
  cells.filter fun c => c ≠ Cell.realNan

/-- The post-processing of `optimize` (hrp.py lines 189-195): round the
weights to 8 decimals, renormalize by the sum, overwrite the entries that
are exactly zero with the string `'nan'`, and drop NaN columns. -/
def postProcess (w : List ℚ) : List Cell :=
  let r := w.map round8
  let s := r.sum
  let nrm := r.map fun q => q / s
  dropnaCols (nrm.map fun q => if q = 0 then Cell.nanStr else Cell.num q)

/-- Invariant of the cluster lists processed by `_getRecBipart`: every
cluster is duplicate-free and distinct clusters are disjoint (true of the
initial singleton list holding a permutation of the asset indices, and
preserved by bisection). -/
def GoodClusters (cs : List (List ℕ)) : Prop :=
  (∀ c ∈ cs, c.Nodup) ∧ cs.Pairwise List.Disjoint

/-! ## Structural lemmas about the bisection pass -/

/-- Membership in a bisection pass: exactly the two halves of the parents
of size greater than one. -/
theorem mem_bisect {cs : List (List ℕ)} {x : List ℕ} :
    x ∈ bisect cs ↔ ∃ c ∈ cs, 1 < c.length ∧
      (x = c.take (c.length / 2) ∨ x = c.drop (c.length / 2)) := by
  simp only [bisect, List.mem_flatMap]
  constructor
  · rintro ⟨c, hc, hx⟩
    by_cases h : 1 < c.length
    · rw [if_pos h] at hx
      simp only [List.mem_cons, List.mem_singleton, List.not_mem_nil, or_false] at hx
      exact ⟨c, hc, h, hx⟩
    · rw [if_neg h] at hx
      cases hx
  · rintro ⟨c, hc, h, hx⟩
    refine ⟨c, hc, ?_⟩
    rw [if_pos h]
    simpa using hx

/-- Every cluster produced by a bisection pass is contained in a cluster
of the input list. -/
theorem bisect_subset {cs : List (List ℕ)} {x : List ℕ} (hx : x ∈ bisect cs) :
    ∃ c ∈ cs, x ⊆ c := by
  rcases mem_bisect.1 hx with ⟨c, hc, _, rfl | rfl⟩
  · exact ⟨c, hc, List.take_subset _ _⟩
  · exact ⟨c, hc, List.drop_subset _ _⟩

/-- **C10**: after each bisection step the produced list of subclusters
has even length and every subcluster is non-empty, so the paired accesses
at indices `subcluster` and `subcluster + 1` in the pairing loop of
`_getRecBipart` are always within bounds. -/
theorem bisect_even_length_and_ne_nil (cs : List (List ℕ)) :
    2 ∣ (bisect cs).length ∧ ∀ c ∈ bisect cs, c ≠ [] := by
  constructor
  · induction cs with
    | nil => simp [bisect]
    | cons c cs ih =>
      rw [bisect_cons, List.length_append]
      have hl : (bisect [c]).length = if 1 < c.length then 2 else 0 := by
        by_cases h : 1 < c.length <;> simp [bisect, h]
      rcases ih with ⟨m, hm⟩
      rw [hl, hm]
      by_cases h : 1 < c.length <;> simp [h] <;> omega
  · intro x hx
    rcases mem_bisect.1 hx with ⟨c, _, hlen, rfl | rfl⟩
    · have h : (c.take (c.length / 2)).length = c.length / 2 := by
        rw [List.length_take]
        omega
      intro hnil
      rw [hnil] at h
      simp only [List.length_nil] at h
      omega
    · have h : (c.drop (c.length / 2)).length = c.length - c.length / 2 :=
        List.length_drop _ _
      intro hnil
      rw [hnil] at h
      simp only [List.length_nil] at h
      omega

/-- Witness for C10 at a concrete input: the bisection of a single
3-element cluster. -/
theorem bisect_even_length_and_ne_nil_witness :
    2 ∣ (bisect [[0, 1, 2]]).length ∧ [1, 2] ≠ ([] : List ℕ) :=
  ⟨(bisect_even_length_and_ne_nil [[0, 1, 2]]).1,
   (bisect_even_length_and_ne_nil [[0, 1, 2]]).2 [1, 2] (by decide)⟩

/-! ## C6: no usable-asset-count validation at the start of `optimize` -/

/-- **C6 counterexample**: a price table with exactly one usable asset
that is a DataFrame indexed by datetime passes the start-of-run validation
of `optimize`; no `InvalidInputError` is raised at the start of the run. -/
theorem optimizeValidation_accepts_single_asset :
    optimizeValidation ⟨true, true, 1⟩ = Except.ok () := rfl

/-- **C6 (amended)**: the validation at the start of `optimize` checks
only that the input is a DataFrame with a datetime index; it never
inspects the number of usable assets, so any such table — however few
assets remain after cleaning — is accepted by it. -/
theorem optimizeValidation_ignores_asset_count (t : PriceTableShape)
    (hdf : t.isDataFrame = true) (hdt : t.isDatetimeIndexed = true) :
    optimizeValidation t = Except.ok () := by
  simp [optimizeValidation, hdf, hdt]

/-- Witness for the amended C6 at a concrete table with zero usable
assets. -/
theorem optimizeValidation_ignores_asset_count_witness :
    optimizeValidation ⟨true, true, 0⟩ = Except.ok () :=
  optimizeValidation_ignores_asset_count ⟨true, true, 0⟩ rfl rfl

/-! ## C7: the selectable names -/

/-- **C7 counterexample**: the spec-listed risk-metric name
`shrinkage-LedoitWolf` is rejected by the constructor (the code accepts
`letoidwolf` instead), so it is not true that every name the claim lists
is accepted. -/
theorem hrpInit_rejects_spec_name :
    hrpInit "shrinkage-LedoitWolf".toList "single".toList =
      Except.error "RiskMetrics must be one of the following: 'Variance', 'Semivariance', 'Shrinkage', 'LetoidWolf' or 'OAS'".toList := by
  rw [hrpInit, if_pos (by decide)]

/-- **C7 (amended)**: construction succeeds exactly when the lower-cased
risk-metric name is one of `variance`, `semivariance`, `shrinkage`,
`letoidwolf`, `oas` and the lower-cased linkage-method name is one of
`ward`, `single`, `average`, `complete`, `median`, `weighted`,
`centroid`; every other name is rejected at construction time. -/
theorem hrpInit_ok_iff (riskMetrics method : List Char) :
    (∃ p, hrpInit riskMetrics method = Except.ok p) ↔
      pyLower riskMetrics ∈ metricNames ∧ pyLower method ∈ methodNames := by
  unfold hrpInit
  by_cases h1 : pyLower riskMetrics ∈ metricNames
  · by_cases h2 : pyLower method ∈ methodNames
    · simp [h1, h2]
    · simp [h1, h2]
  · simp [h1]

/-- Witness for the amended C7: the name pair (`LetoidWolf`, `Ward`) is
accepted. -/
theorem hrpInit_ok_iff_witness :
    ∃ p, hrpInit "LetoidWolf".toList "Ward".toList = Except.ok p :=
  (hrpInit_ok_iff "LetoidWolf".toList "Ward".toList).mpr (by decide)

/-! ## C9: `plot` always fails after `optimize` -/

/-- No reachable instance state ever has the `asset_names` attribute
assigned: `__init__` does not set it and `optimize` only writes
`clusters`. -/
theorem reachable_assetNames_false {s : HRPInstance} (h : Reachable s) :
    s.assetNamesAssigned = false := by
  induction h with
  | init => rfl
  | optimized s tree _ ih => exact ih

/-- **C9**: after every successful `optimize` call on any reachable
instance state, `plot` fails with an attribute error — `optimize` stores
the merge tree but never assigns `self.asset_names`, which `plot` reads —
so `plot` never completes successfully. -/
theorem plot_fails_after_optimize (s : HRPInstance) (tree : List (ℕ × ℕ))
    (h : Reachable s) :
    plotModel (optimizeEffect s tree) =
      Except.error "AttributeError: object has no attribute" := by
  have ha := reachable_assetNames_false h
  simp [plotModel, optimizeEffect, ha]

/-- Witness for C9: a freshly constructed instance after one `optimize`
run. -/
theorem plot_fails_after_optimize_witness :
    plotModel (optimizeEffect hrpInitState [(0, 1)]) =
      Except.error "AttributeError: object has no attribute" :=
  plot_fails_after_optimize hrpInitState [(0, 1)] Reachable.init

/-! ## C1, C8: the zero-weight drop in the post-processing is broken -/

/-- **C8 evaluation at the failing input**: for weights `(2, 10⁻⁹)` the
second weight rounds to 0 at 8 decimals, but the asset is *not* dropped:
the returned table still holds a column for it, with the string `'nan'`
(I.e. `Portifolio[Portifolio == 0] = 'nan'` stores a string that
`dropna` does not treat as missing). -/
theorem postProcess_keeps_zero_as_nanStr :
    postProcess [2, 1 / 1000000000] = [Cell.num 1, Cell.nanStr] := by
  norm_num [postProcess, dropnaCols, round8, round_eq]
  constructor <;> (intro hh; cases hh)

/-- **C1 evaluation at the failing input**: for weights `(1, 3·10⁻⁹)` the
output table keeps a column for the zero-rounded second asset (holding
the string `'nan'`), so the returned table does not contain columns only
for assets with non-zero final weight. -/
theorem postProcess_column_for_zero_weight :
    postProcess [1, 3 / 1000000000] = [Cell.num 1, Cell.nanStr] := by
  norm_num [postProcess, dropnaCols, round8, round_eq]
  constructor <;> (intro hh; cases hh)

/-! ## C5: the allocation-factor division is not guarded -/

/-- If the two halves of the initial cluster have cluster variances
summing to exactly zero, the recursive bisection produces no weight
vector: the division defining the allocation factor is performed
unguarded and fails. -/
theorem getRecBipart_zero_denom_none (cov : ℕ → ℕ → ℚ) (c : List ℕ)
    (hlen : 1 < c.length)
    (hzero : getClusterVar cov (c.take (c.length / 2)) +
      getClusterVar cov (c.drop (c.length / 2)) = 0) :
    getRecBipart? cov c = none := by
  rw [getRecBipart?, recLoop?, dif_neg (by simp)]
  have hb : bisect [c] = [c.take (c.length / 2), c.drop (c.length / 2)] := by
    simp [bisect, if_pos hlen]
  rw [hb]
  simp [applyPairs?, hzero]

/-- **C5 counterexample**: for the risk matrix of two anti-correlated
unit-variance pairs, both halves of the first bisection have cluster
variance 0; the computation is not guarded and yields no weight vector at
all — in particular no deterministic equal split `a = 0.5`. -/
theorem getRecBipart_cov4_none : getRecBipart? cov4 [0, 1, 2, 3] = none :=
  getRecBipart_zero_denom_none cov4 [0, 1, 2, 3] (by norm_num)
    (by norm_num [getClusterVar, quadForm, getIVP, cov4])

/-- **C5 (amended)**: the division defining the allocation factor is not
guarded against a zero denominator: whenever `var_left + var_right` is
exactly zero at the first split, `_getRecBipart` produces no weight
vector instead of a deterministic equal split. -/
theorem allocation_unguarded_zero_denominator (cov : ℕ → ℕ → ℚ)
    (c : List ℕ) (hlen : 1 < c.length)
    (hzero : getClusterVar cov (c.take (c.length / 2)) +
      getClusterVar cov (c.drop (c.length / 2)) = 0) :
    getRecBipart? cov c = none :=
  getRecBipart_zero_denom_none cov c hlen hzero

/-- Witness for the amended C5 at the concrete matrix `cov4`. -/
theorem allocation_unguarded_zero_denominator_witness :
    1 < ([0, 1, 2, 3] : List ℕ).length ∧
      getRecBipart? cov4 [0, 1, 2, 3] = none :=
  ⟨by norm_num,
   allocation_unguarded_zero_denominator cov4 [0, 1, 2, 3] (by norm_num)
     (by norm_num [getClusterVar, quadForm, getIVP, cov4])⟩

/-! ## Cluster variance on a diagonal equal-variance risk matrix -/

theorem zip_replicate_map (c : List ℕ) (a : ℚ) :
    c.zip (List.replicate c.length a) = c.map fun i => (i, a) := by
  induction c with
  | nil => rfl
  | cons x c ih => simp [List.replicate_succ, ih]

theorem map_inv_diag (σ : ℚ) (c : List ℕ) :
    (c.map fun i => 1 / diagCov σ i i) = List.replicate c.length (1 / σ) := by
  induction c with
  | nil => rfl
  | cons x c ih => simp [diagCov, List.replicate_succ, ih]

/-- On the diagonal equal-variance matrix, the inverse-variance weights of
any cluster are uniform `1 / |c|`. -/
theorem getIVP_diag (σ : ℚ) (hσ : σ ≠ 0) (c : List ℕ) :
    getIVP (diagCov σ) c = List.replicate c.length (1 / (c.length : ℚ)) := by
  rcases Nat.eq_zero_or_pos c.length with h0 | hpos
  · rw [List.length_eq_zero] at h0
    subst h0
    rfl
  · have hm : (c.length : ℚ) ≠ 0 := Nat.cast_ne_zero.mpr (by omega)
    simp only [getIVP]
    rw [map_inv_diag, List.map_replicate, List.sum_replicate]
    congr 1
    rw [nsmul_eq_mul]
    field_simp

theorem sum_map_ite_eq (v : ℚ) :
    ∀ (c : List ℕ), c.Nodup → ∀ i ∈ c,
      (c.map fun j => if i = j then v else 0).sum = v := by
  intro c
  induction c with
  | nil => intro _ i hi; cases hi
  | cons x c ih =>
    intro hnd i hi
    rcases List.mem_cons.1 hi with rfl | hi'
    · have hz : (c.map fun j => if i = j then v else 0).sum = 0 := by
        rw [List.sum_eq_zero]
        intro q hq
        rcases List.mem_map.1 hq with ⟨j, hj, rfl⟩
        rw [if_neg]
        rintro rfl
        exact (List.nodup_cons.1 hnd).1 hj
      simp only [List.map_cons, List.sum_cons]
      rw [hz, add_zero]
      simp
    · have hx : i ≠ x := by
        rintro rfl
        exact (List.nodup_cons.1 hnd).1 hi'
      simp only [List.map_cons, List.sum_cons, if_neg hx]
      rw [zero_add]
      exact ih (List.nodup_cons.1 hnd).2 i hi'

/-- `_getClusterVar` on the diagonal equal-variance matrix: the cluster
variance of a duplicate-free cluster is `σ / |c|`. -/
theorem getClusterVar_diag (σ : ℚ) (hσ : σ ≠ 0) (c : List ℕ) (hnd : c.Nodup) :
    getClusterVar (diagCov σ) c = σ / (c.length : ℚ) := by
  rcases Nat.eq_zero_or_pos c.length with h0 | hpos
  · rw [List.length_eq_zero] at h0
    subst h0
    simp [getClusterVar, quadForm, getIVP]
  · have hm : (c.length : ℚ) ≠ 0 := Nat.cast_ne_zero.mpr (by omega)
    unfold getClusterVar quadForm
    rw [getIVP_diag σ hσ, zip_replicate_map, List.map_map]
    have inner_eq : ∀ i ∈ c,
        ((c.map fun j =>
          (1 / (c.length : ℚ)) * diagCov σ i j * (1 / (c.length : ℚ)))).sum =
          σ / ((c.length : ℚ) * (c.length : ℚ)) := by
      intro i hi
      have hpt : (fun j =>
          (1 / (c.length : ℚ)) * diagCov σ i j * (1 / (c.length : ℚ))) =
          fun j => if i = j then σ / ((c.length : ℚ) * (c.length : ℚ)) else 0 := by
        funext j
        by_cases hij : i = j
        · rw [if_pos hij]
          simp only [diagCov, if_pos hij]
          field_simp
        · rw [if_neg hij]
          simp [diagCov, hij]
      rw [hpt]
      exact sum_map_ite_eq _ c hnd i hi
    have houter : (c.map fun i =>
        ((c.map fun j => (1 / (c.length : ℚ)) * diagCov σ i j *
          (1 / (c.length : ℚ)))).sum) =
        c.map fun _ => σ / ((c.length : ℚ) * (c.length : ℚ)) := by
      apply List.map_congr_left
      intro i hi
      exact inner_eq i hi
    have hcomp : ((fun iw : ℕ × ℚ =>
        ((c.map fun x => (x, 1 / (c.length : ℚ))).map fun jw =>
          iw.2 * diagCov σ iw.1 jw.1 * jw.2).sum) ∘ fun i => (i, 1 / (c.length : ℚ))) =
        fun i => ((c.map fun j => (1 / (c.length : ℚ)) * diagCov σ i j *
          (1 / (c.length : ℚ)))).sum := by
      funext i
      simp only [Function.comp, List.map_map]
      rfl
    rw [hcomp, houter, List.map_const', List.sum_replicate, nsmul_eq_mul]
    field_simp
    ring

/-! ## C3: the pairing loop processes exactly the two halves of each parent -/

/-- **C3**: one level of `_getRecBipart` — bisecting every cluster of size
greater than one into the halves `[0, len//2)` and `[len//2, len)` and then
pairing the produced list two at a time by index — acts exactly as the
specification describes: for each parent, in production order, the factor
`a = 1 - var_left / (var_left + var_right)` of its own two halves scales the
left half's weights and `1 - a` the right half's. -/
theorem applyPairs_bisect_eq_specLevel (cov : ℕ → ℕ → ℚ) :
    ∀ (cs : List (List ℕ)) (w : ℕ → ℚ),
      applyPairs? cov (bisect cs) w = specLevel? cov cs w := by
  intro cs
  induction cs with
  | nil => intro w; rfl
  | cons c cs ih =>
    intro w
    by_cases h : 1 < c.length
    · have hb : bisect (c :: cs) =
          c.take (c.length / 2) :: c.drop (c.length / 2) :: bisect cs := by
        simp [bisect, if_pos h]
      rw [hb]
      simp only [applyPairs?, specLevel?, if_pos h]
      by_cases hz : getClusterVar cov (c.take (c.length / 2)) +
          getClusterVar cov (c.drop (c.length / 2)) = 0
      · simp only [if_pos hz]
      · simp only [if_neg hz]
        exact ih _
    · have hb : bisect (c :: cs) = bisect cs := by
        simp [bisect, if_neg h]
      rw [hb]
      simp only [specLevel?, if_neg h]
      exact ih w

/-! ## The bisection invariant is preserved -/

theorem goodClusters_nil : GoodClusters [] :=
  ⟨fun c hc => absurd hc (List.not_mem_nil c), List.Pairwise.nil⟩

theorem goodClusters_of_cons {c : List ℕ} {cs : List (List ℕ)}
    (h : GoodClusters (c :: cs)) : GoodClusters cs :=
  ⟨fun x hx => h.1 x (List.mem_cons_of_mem _ hx), (List.pairwise_cons.1 h.2).2⟩

/-- The two halves of a duplicate-free list are disjoint. -/
theorem take_drop_disjoint {c : List ℕ} (hnd : c.Nodup) (k : ℕ) :
    (c.take k).Disjoint (c.drop k) := by
  have hsplit : ((c.take k) ++ (c.drop k)).Nodup := by
    rw [List.take_append_drop]
    exact hnd
  exact (List.nodup_append.1 hsplit).2.2

theorem goodClusters_bisect :
    ∀ {cs : List (List ℕ)}, GoodClusters cs → GoodClusters (bisect cs) := by
  intro cs
  induction cs with
  | nil =>
    intro _
    exact goodClusters_nil
  | cons c cs ih =>
    intro hg
    obtain ⟨hnd, hdisj⟩ := hg
    have hcnd : c.Nodup := hnd c (List.mem_cons_self _ _)
    have ihcs := ih (goodClusters_of_cons ⟨hnd, hdisj⟩)
    rw [bisect_cons]
    constructor
    · intro x hx
      rcases List.mem_append.1 hx with hx | hx
      · rcases mem_bisect.1 hx with ⟨c', hc', _, rfl | rfl⟩
        · have hcc : c' = c := by simpa using hc'
          subst hcc
          exact (List.take_sublist _ _).nodup hcnd
        · have hcc : c' = c := by simpa using hc'
          subst hcc
          exact (List.drop_sublist _ _).nodup hcnd
      · exact ihcs.1 x hx
    · rw [List.pairwise_append]
      refine ⟨?_, ihcs.2, ?_⟩
      · by_cases h : 1 < c.length
        · have hb : bisect [c] =
              [c.take (c.length / 2), c.drop (c.length / 2)] := by
            simp [bisect, if_pos h]
          rw [hb]
          refine List.pairwise_cons.2 ⟨?_, List.pairwise_singleton _ _⟩
          intro r hr
          have hrd : r = c.drop (c.length / 2) := by simpa using hr
          subst hrd
          exact take_drop_disjoint hcnd _
        · have hb : bisect [c] = [] := by simp [bisect, if_neg h]
          rw [hb]
          exact List.Pairwise.nil
      · intro x hx y hy
        rcases mem_bisect.1 hx with ⟨c', hc', _, hx'⟩
        have hcc : c' = c := by simpa using hc'
        rcases bisect_subset hy with ⟨d, hd, hysub⟩
        have hcd : c.Disjoint d := (List.pairwise_cons.1 hdisj).1 d hd
        have hxsub : x ⊆ c' := by
          rcases hx' with rfl | rfl
          · exact List.take_subset _ _
          · exact List.drop_subset _ _
        rw [hcc] at hxsub
        intro a ha hay
        exact hcd (hxsub ha) (hysub hay)

/-! ## The allocation factor on the diagonal equal-variance matrix -/

theorem clusterVar_halves_pos (σ : ℚ) (hσ : 0 < σ) (c : List ℕ)
    (hnd : c.Nodup) (h : 1 < c.length) :
    0 < getClusterVar (diagCov σ) (c.take (c.length / 2)) ∧
      0 < getClusterVar (diagCov σ) (c.drop (c.length / 2)) := by
  have hll : (c.take (c.length / 2)).length = c.length / 2 := by
    rw [List.length_take]
    omega
  have hrl : (c.drop (c.length / 2)).length = c.length - c.length / 2 :=
    List.length_drop _ _
  rw [getClusterVar_diag σ (ne_of_gt hσ) _ ((List.take_sublist _ _).nodup hnd),
    getClusterVar_diag σ (ne_of_gt hσ) _ ((List.drop_sublist _ _).nodup hnd),
    hll, hrl]
  constructor
  · apply div_pos hσ
    have : 0 < c.length / 2 := by omega
    exact_mod_cast this
  · apply div_pos hσ
    have : 0 < c.length - c.length / 2 := by omega
    exact_mod_cast this

theorem allocFactor_diag (σ : ℚ) (hσ : 0 < σ) (c : List ℕ)
    (hnd : c.Nodup) (h : 1 < c.length) :
    1 - getClusterVar (diagCov σ) (c.take (c.length / 2)) /
        (getClusterVar (diagCov σ) (c.take (c.length / 2)) +
         getClusterVar (diagCov σ) (c.drop (c.length / 2))) =
      ((c.length / 2 : ℕ) : ℚ) / (c.length : ℚ) := by
  have hll : (c.take (c.length / 2)).length = c.length / 2 := by
    rw [List.length_take]
    omega
  have hrl : (c.drop (c.length / 2)).length = c.length - c.length / 2 :=
    List.length_drop _ _
  rw [getClusterVar_diag σ (ne_of_gt hσ) _ ((List.take_sublist _ _).nodup hnd),
    getClusterVar_diag σ (ne_of_gt hσ) _ ((List.drop_sublist _ _).nodup hnd),
    hll, hrl]
  have hA : (0 : ℚ) < ((c.length / 2 : ℕ) : ℚ) := by
    have : 0 < c.length / 2 := by omega
    exact_mod_cast this
  have hB : (0 : ℚ) < ((c.length - c.length / 2 : ℕ) : ℚ) := by
    have : 0 < c.length - c.length / 2 := by omega
    exact_mod_cast this
  have hC : ((c.length / 2 : ℕ) : ℚ) + ((c.length - c.length / 2 : ℕ) : ℚ) =
      (c.length : ℚ) := by
    have : c.length / 2 + (c.length - c.length / 2) = c.length := by omega
    exact_mod_cast this
  rw [← hC]
  have hsum : (0 : ℚ) < σ / ((c.length / 2 : ℕ) : ℚ) +
      σ / ((c.length - c.length / 2 : ℕ) : ℚ) :=
    add_pos (div_pos hσ hA) (div_pos hσ hB)
  field_simp
  ring

theorem one_sub_allocFactor_diag (σ : ℚ) (hσ : 0 < σ) (c : List ℕ)
    (hnd : c.Nodup) (h : 1 < c.length) :
    1 - (1 - getClusterVar (diagCov σ) (c.take (c.length / 2)) /
        (getClusterVar (diagCov σ) (c.take (c.length / 2)) +
         getClusterVar (diagCov σ) (c.drop (c.length / 2)))) =
      ((c.length - c.length / 2 : ℕ) : ℚ) / (c.length : ℚ) := by
  rw [allocFactor_diag σ hσ c hnd h]
  have hC : ((c.length / 2 : ℕ) : ℚ) + ((c.length - c.length / 2 : ℕ) : ℚ) =
      (c.length : ℚ) := by
    have : c.length / 2 + (c.length - c.length / 2) = c.length := by omega
    exact_mod_cast this
  have hCne : ((c.length : ℚ)) ≠ 0 := by
    have : (0 : ℚ) < (c.length : ℚ) := by exact_mod_cast Nat.lt_of_lt_of_le Nat.zero_lt_one (le_of_lt h)
    exact ne_of_gt this
  have hABne : ((c.length / 2 : ℕ) : ℚ) + ((c.length - c.length / 2 : ℕ) : ℚ) ≠ 0 := by
    rw [hC]
    exact hCne
  rw [← hC]
  field_simp

/-! ## One level of the bisection loop on the diagonal matrix -/

theorem applyPairs_bisect_diag (σ : ℚ) (hσ : 0 < σ) :
    ∀ (cs : List (List ℕ)) (w : ℕ → ℚ), GoodClusters cs →
      ∃ w₁, applyPairs? (diagCov σ) (bisect cs) w = some w₁ ∧
        (∀ c ∈ cs, 1 < c.length →
          (∀ i ∈ c.take (c.length / 2),
            w₁ i = w i * (((c.length / 2 : ℕ) : ℚ) / (c.length : ℚ))) ∧
          (∀ i ∈ c.drop (c.length / 2),
            w₁ i = w i * (((c.length - c.length / 2 : ℕ) : ℚ) / (c.length : ℚ)))) ∧
        (∀ i, (∀ c ∈ cs, 1 < c.length → i ∉ c) → w₁ i = w i) := by
  intro cs
  induction cs with
  | nil =>
    intro w _
    exact ⟨w, rfl, by simp, fun i _ => rfl⟩
  | cons c cs ih =>
    intro w hg
    have hcnd : c.Nodup := hg.1 c (List.mem_cons_self _ _)
    have hgcs : GoodClusters cs := goodClusters_of_cons hg
    have hcdisj : ∀ d ∈ cs, c.Disjoint d := (List.pairwise_cons.1 hg.2).1
    by_cases h : 1 < c.length
    · have hb : bisect (c :: cs) =
          c.take (c.length / 2) :: c.drop (c.length / 2) :: bisect cs := by
        simp [bisect, if_pos h]
      have hpos := clusterVar_halves_pos σ hσ c hcnd h
      have hne : getClusterVar (diagCov σ) (c.take (c.length / 2)) +
          getClusterVar (diagCov σ) (c.drop (c.length / 2)) ≠ 0 :=
        ne_of_gt (add_pos hpos.1 hpos.2)
      obtain ⟨w₁, heq, hprops, huntouched⟩ := ih (fun i =>
        if i ∈ c.take (c.length / 2) then
          w i * (1 - getClusterVar (diagCov σ) (c.take (c.length / 2)) /
            (getClusterVar (diagCov σ) (c.take (c.length / 2)) +
             getClusterVar (diagCov σ) (c.drop (c.length / 2))))
        else if i ∈ c.drop (c.length / 2) then
          w i * (1 - (1 - getClusterVar (diagCov σ) (c.take (c.length / 2)) /
            (getClusterVar (diagCov σ) (c.take (c.length / 2)) +
             getClusterVar (diagCov σ) (c.drop (c.length / 2)))))
        else w i) hgcs
      have hw2self : ∀ i ∈ c, ∀ d ∈ cs, 1 < d.length → i ∉ d := by
        intro i hi d hd _
        exact fun hid => hcdisj d hd hi hid
      refine ⟨w₁, ?_, ?_, ?_⟩
      · rw [hb]
        simp only [applyPairs?, if_neg hne]
        exact heq
      · intro c' hc' hlen
        rcases List.mem_cons.1 hc' with rfl | hc'
        · constructor
          · intro i hi
            have hic : i ∈ c' := List.take_subset _ _ hi
            rw [huntouched i (hw2self i hic), if_pos hi,
              allocFactor_diag σ hσ c' hcnd h]
          · intro i hi
            have hic : i ∈ c' := List.drop_subset _ _ hi
            have hnotl : i ∉ c'.take (c'.length / 2) :=
              (take_drop_disjoint hcnd (c'.length / 2)).symm hi
            rw [huntouched i (hw2self i hic), if_neg hnotl, if_pos hi,
              one_sub_allocFactor_diag σ hσ c' hcnd h]
        · have hw2eq : ∀ i, i ∉ c →
              (if i ∈ c.take (c.length / 2) then
                w i * (1 - getClusterVar (diagCov σ) (c.take (c.length / 2)) /
                  (getClusterVar (diagCov σ) (c.take (c.length / 2)) +
                   getClusterVar (diagCov σ) (c.drop (c.length / 2))))
              else if i ∈ c.drop (c.length / 2) then
                w i * (1 - (1 - getClusterVar (diagCov σ) (c.take (c.length / 2)) /
                  (getClusterVar (diagCov σ) (c.take (c.length / 2)) +
                   getClusterVar (diagCov σ) (c.drop (c.length / 2)))))
              else w i) = w i := by
            intro i hnc
            rw [if_neg (fun hx => hnc (List.take_subset _ _ hx)),
              if_neg (fun hx => hnc (List.drop_subset _ _ hx))]
          obtain ⟨hL, hR⟩ := hprops c' hc' hlen
          constructor
          · intro i hi
            rw [hL i hi,
              hw2eq i (fun hic => hcdisj c' hc' hic (List.take_subset _ _ hi))]
          · intro i hi
            rw [hR i hi,
              hw2eq i (fun hic => hcdisj c' hc' hic (List.drop_subset _ _ hi))]
      · intro i hcond
        have hnc : i ∉ c := hcond c (List.mem_cons_self _ _) h
        have h2 : ∀ d ∈ cs, 1 < d.length → i ∉ d := fun d hd hdl =>
          hcond d (List.mem_cons_of_mem _ hd) hdl
        rw [huntouched i h2]
        rw [if_neg (fun hx => hnc (List.take_subset _ _ hx)),
          if_neg (fun hx => hnc (List.drop_subset _ _ hx))]
    · have hb : bisect (c :: cs) = bisect cs := by
        simp [bisect, if_neg h]
      obtain ⟨w₁, heq, hprops, huntouched⟩ := ih w hgcs
      refine ⟨w₁, ?_, ?_, ?_⟩
      · rw [hb]
        exact heq
      · intro c' hc' hlen
        rcases List.mem_cons.1 hc' with rfl | hc'
        · exact absurd hlen h
        · exact hprops c' hc' hlen
      · intro i hcond
        exact huntouched i fun d hd hdl => hcond d (List.mem_cons_of_mem _ hd) hdl

/-! ## The full bisection loop on the diagonal matrix -/

theorem bisectMeasure_eq_zero {cs : List (List ℕ)}
    (h : bisectMeasure cs ≤ 0) : cs = [] := by
  cases cs with
  | nil => rfl
  | cons c cs =>
    exfalso
    have hp : 0 < 3 ^ c.length := Nat.pos_pow_of_pos _ (by norm_num)
    simp only [bisectMeasure, List.map_cons, List.sum_cons] at h
    omega

theorem recLoop_diag (σ : ℚ) (hσ : 0 < σ) :
    ∀ (n : ℕ) (cs : List (List ℕ)) (w : ℕ → ℚ),
      bisectMeasure cs ≤ n → GoodClusters cs →
      ∃ w', recLoop? (diagCov σ) cs w = some w' ∧
        (∀ c ∈ cs, ∀ i ∈ c, w' i = w i / (c.length : ℚ)) ∧
        (∀ i, (∀ c ∈ cs, i ∉ c) → w' i = w i) := by
  have hsym : Symmetric (List.Disjoint (α := ℕ)) := fun a b hab => hab.symm
  intro n
  induction n with
  | zero =>
    intro cs w hm hg
    have hcs : cs = [] := bisectMeasure_eq_zero hm
    subst hcs
    refine ⟨w, ?_, by simp, fun i _ => rfl⟩
    rw [recLoop?]
    simp
  | succ n ih =>
    intro cs w hm hg
    by_cases hcs : cs = []
    · subst hcs
      refine ⟨w, ?_, by simp, fun i _ => rfl⟩
      rw [recLoop?]
      simp
    · obtain ⟨w₂, heq2, hprops2, hun2⟩ := applyPairs_bisect_diag σ hσ cs w hg
      have hg' : GoodClusters (bisect cs) := goodClusters_bisect hg
      have hm' : bisectMeasure (bisect cs) ≤ n := by
        have := bisectMeasure_lt cs hcs
        omega
      obtain ⟨w', heq', hprops', hun'⟩ := ih (bisect cs) w₂ hm' hg'
      refine ⟨w', ?_, ?_, ?_⟩
      · rw [recLoop?, dif_neg hcs, heq2]
        exact heq'
      · intro c hc i hi
        by_cases hlen : 1 < c.length
        · have hsplit : i ∈ c.take (c.length / 2) ++ c.drop (c.length / 2) := by
            rw [List.take_append_drop]
            exact hi
          have hCpos : (0 : ℚ) < (c.length : ℚ) := by
            have : 0 < c.length := by omega
            exact_mod_cast this
          rcases List.mem_append.1 hsplit with hil | hir
          · have hlb : c.take (c.length / 2) ∈ bisect cs :=
              mem_bisect.2 ⟨c, hc, hlen, Or.inl rfl⟩
            have h1 : w' i = w₂ i / ((c.take (c.length / 2)).length : ℚ) :=
              hprops' _ hlb i hil
            have h2 : w₂ i = w i * (((c.length / 2 : ℕ) : ℚ) / (c.length : ℚ)) :=
              (hprops2 c hc hlen).1 i hil
            have hll : (c.take (c.length / 2)).length = c.length / 2 := by
              rw [List.length_take]
              omega
            have hApos : (0 : ℚ) < ((c.length / 2 : ℕ) : ℚ) := by
              have : 0 < c.length / 2 := by omega
              exact_mod_cast this
            have hA' := ne_of_gt hApos
            have hC' := ne_of_gt hCpos
            rw [h1, h2, hll]
            field_simp
            ring
          · have hrb : c.drop (c.length / 2) ∈ bisect cs :=
              mem_bisect.2 ⟨c, hc, hlen, Or.inr rfl⟩
            have h1 : w' i = w₂ i / ((c.drop (c.length / 2)).length : ℚ) :=
              hprops' _ hrb i hir
            have h2 : w₂ i =
                w i * (((c.length - c.length / 2 : ℕ) : ℚ) / (c.length : ℚ)) :=
              (hprops2 c hc hlen).2 i hir
            have hrl : (c.drop (c.length / 2)).length = c.length - c.length / 2 :=
              List.length_drop _ _
            have hBpos : (0 : ℚ) < ((c.length - c.length / 2 : ℕ) : ℚ) := by
              have : 0 < c.length - c.length / 2 := by omega
              exact_mod_cast this
            have hB' := ne_of_gt hBpos
            have hC' := ne_of_gt hCpos
            rw [h1, h2, hrl]
            field_simp
            ring
        · have hlone : c.length = 1 := by
            have : 0 < c.length := List.length_pos.2 (by rintro rfl; cases hi)
            omega
          have hnotin : ∀ d ∈ cs, 1 < d.length → i ∉ d := by
            intro d hd hdl
            by_cases hdc : d = c
            · subst hdc
              exact absurd hdl (by omega)
            · have hdisj : c.Disjoint d :=
                List.Pairwise.forall hsym hg.2 hc hd (fun he => hdc he.symm)
              exact fun hid => hdisj hi hid
          have hw2 : w₂ i = w i := hun2 i hnotin
          have hnb : ∀ d ∈ bisect cs, i ∉ d := by
            intro d hd hid
            rcases mem_bisect.1 hd with ⟨p, hp, hplen, hdh⟩
            have hsub : d ⊆ p := by
              rcases hdh with rfl | rfl
              · exact List.take_subset _ _
              · exact List.drop_subset _ _
            exact hnotin p hp hplen (hsub hid)
          rw [hun' i hnb, hw2, hlone]
          norm_num
      · intro i hcond
        have h2 : ∀ c ∈ cs, 1 < c.length → i ∉ c := fun c hc _ => hcond c hc
        have hnb : ∀ d ∈ bisect cs, i ∉ d := by
          intro d hd hid
          rcases bisect_subset hd with ⟨p, hp, hsub⟩
          exact hcond p hp (hsub hid)
        rw [hun' i hnb, hun2 i h2]

/-! ## The recorded allocation factors on the diagonal matrix -/

theorem pairFactors_bisect_diag (σ : ℚ) (hσ : 0 < σ) :
    ∀ (cs : List (List ℕ)), GoodClusters cs →
      ∀ t ∈ pairFactors (diagCov σ) (bisect cs),
        0 < t.1 ∧ 0 < t.2.1 ∧
          t.2.2 = (t.1 : ℚ) / ((t.1 : ℚ) + (t.2.1 : ℚ)) := by
  intro cs
  induction cs with
  | nil =>
    intro _ t ht
    simp only [bisect, List.flatMap_nil, pairFactors] at ht
    cases ht
  | cons c cs ih =>
    intro hg t ht
    have hgcs := goodClusters_of_cons hg
    have hcnd : c.Nodup := hg.1 c (List.mem_cons_self _ _)
    by_cases h : 1 < c.length
    · have hb : bisect (c :: cs) =
          c.take (c.length / 2) :: c.drop (c.length / 2) :: bisect cs := by
        simp [bisect, if_pos h]
      rw [hb] at ht
      simp only [pairFactors] at ht
      rcases List.mem_cons.1 ht with rfl | ht'
      · have hll : (c.take (c.length / 2)).length = c.length / 2 := by
          rw [List.length_take]
          omega
        have hrl : (c.drop (c.length / 2)).length = c.length - c.length / 2 :=
          List.length_drop _ _
        have hC : ((c.length / 2 : ℕ) : ℚ) +
            ((c.length - c.length / 2 : ℕ) : ℚ) = (c.length : ℚ) := by
          have : c.length / 2 + (c.length - c.length / 2) = c.length := by omega
          exact_mod_cast this
        refine ⟨?_, ?_, ?_⟩
        · simp only [hll]
          omega
        · simp only [hrl]
          omega
        · simp only [hll, hrl]
          rw [hC, allocFactor_diag σ hσ c hcnd h]
      · exact ih hgcs t ht'
    · have hb : bisect (c :: cs) = bisect cs := by
        simp [bisect, if_neg h]
      rw [hb] at ht
      exact ih hgcs t ht

theorem loopFactors_diag (σ : ℚ) (hσ : 0 < σ) :
    ∀ (n : ℕ) (cs : List (List ℕ)), bisectMeasure cs ≤ n → GoodClusters cs →
      ∀ t ∈ loopFactors (diagCov σ) cs,
        0 < t.1 ∧ 0 < t.2.1 ∧
          t.2.2 = (t.1 : ℚ) / ((t.1 : ℚ) + (t.2.1 : ℚ)) := by
  intro n
  induction n with
  | zero =>
    intro cs hm hg t ht
    have hcs : cs = [] := bisectMeasure_eq_zero hm
    subst hcs
    rw [loopFactors, if_pos rfl] at ht
    cases ht
  | succ n ih =>
    intro cs hm hg t ht
    by_cases hcs : cs = []
    · subst hcs
      rw [loopFactors, if_pos rfl] at ht
      cases ht
    · rw [loopFactors, if_neg hcs] at ht
      rcases List.mem_append.1 ht with ht | ht
      · exact pairFactors_bisect_diag σ hσ cs hg t ht
      · have hm' : bisectMeasure (bisect cs) ≤ n := by
          have := bisectMeasure_lt cs hcs
          omega
        exact ih (bisect cs) hm' (goodClusters_bisect hg) t ht

/-! ## C4: the diagonal equal-variance case -/

/-- **C4 counterexample**: for 3 assets with the identity risk matrix, the
first bisection splits into halves of sizes 1 and 2 and produces the
allocation factor 1/3, not 0.5.  So not every bisection step yields a
factor of exactly 0.5. -/
theorem loopFactors_not_all_half :
    (1, 2, (1 : ℚ) / 3) ∈ loopFactors (diagCov 1) [[0, 1, 2]] ∧
      ((1 : ℚ) / 3) ≠ 1 / 2 := by
  constructor
  · have hb1 : bisect [[0, 1, 2]] = [[0], [1, 2]] := by decide
    rw [loopFactors, if_neg (by simp), hb1]
    apply List.mem_append_left
    have hpf : pairFactors (diagCov 1) [[0], [1, 2]] = [(1, 2, (1 : ℚ) / 3)] := by
      norm_num [pairFactors, getClusterVar, quadForm, getIVP, diagCov]
    rw [hpf]
    exact List.mem_singleton.2 rfl
  · norm_num

/-- **C4 (amended)**: for every diagonal risk matrix with equal positive
variances and every duplicate-free ordered index list, the recursive
bisection succeeds, every asset ends with final weight exactly `1/N`, and
every bisection step produces the allocation factor
`size_left / (size_left + size_right)` — which equals exactly 0.5 whenever
the two halves have equal size (e.g. when N is a power of two), but not at
uneven splits. -/
theorem recBipart_diag_equal_variance (σ : ℚ) (hσ : 0 < σ)
    (ordered : List ℕ) (hnd : ordered.Nodup) :
    (∃ w', getRecBipart? (diagCov σ) ordered = some w' ∧
      ∀ i ∈ ordered, w' i = 1 / (ordered.length : ℚ)) ∧
    (∀ t ∈ loopFactors (diagCov σ) [ordered],
      t.2.2 = (t.1 : ℚ) / ((t.1 : ℚ) + (t.2.1 : ℚ)) ∧
        (t.1 = t.2.1 → t.2.2 = 1 / 2)) := by
  have hgood : GoodClusters [ordered] := by
    constructor
    · intro c hc
      rw [List.mem_singleton] at hc
      subst hc
      exact hnd
    · exact List.pairwise_singleton _ _
  constructor
  · obtain ⟨w', heq, hprops, _⟩ :=
      recLoop_diag σ hσ (bisectMeasure [ordered]) [ordered]
        (fun _ => 1) le_rfl hgood
    refine ⟨w', heq, ?_⟩
    intro i hi
    have h := hprops ordered (List.mem_singleton.2 rfl) i hi
    rw [h]
  · intro t ht
    obtain ⟨hA, hB, hf⟩ :=
      loopFactors_diag σ hσ (bisectMeasure [ordered]) [ordered]
        le_rfl hgood t ht
    refine ⟨hf, ?_⟩
    intro hab
    have hBpos : (0 : ℚ) < (t.2.1 : ℚ) := by exact_mod_cast hB
    rw [hf, hab]
    rw [div_eq_div_iff (by positivity) (by norm_num)]
    ring

/-- Witness for the amended C4 at two assets with unit variance. -/
theorem recBipart_diag_equal_variance_witness :
    (0 : ℚ) < 1 ∧ ([0, 1] : List ℕ).Nodup ∧
      ∃ w', getRecBipart? (diagCov 1) [0, 1] = some w' ∧
        ∀ i ∈ ([0, 1] : List ℕ), w' i = 1 / (([0, 1] : List ℕ).length : ℚ) :=
  ⟨by norm_num, by decide,
   (recBipart_diag_equal_variance 1 (by norm_num) [0, 1] (by decide)).1⟩

/-! ## C2: quasi-diagonalization of a well-formed merge tree -/

/-- The fuel does not matter as long as it exceeds the node id: in a tree
whose children have strictly smaller ids than their parents, the recursion
depth below node `i` is at most `i`. -/
theorem getQuasiDiagF_congr (cluster : List (ℕ × ℕ)) (n : ℕ)
    (hWF : ∀ k (h : k < cluster.length),
      (cluster.get ⟨k, h⟩).1 < n + k ∧ (cluster.get ⟨k, h⟩).2 < n + k) :
    ∀ i f₁ f₂, i < f₁ → i < f₂ →
      getQuasiDiagF cluster n f₁ i = getQuasiDiagF cluster n f₂ i := by
  intro i
  induction i using Nat.strong_induction_on with
  | _ i ih =>
    intro f₁ f₂ h₁ h₂
    obtain ⟨g₁, rfl⟩ : ∃ g, f₁ = g + 1 := ⟨f₁ - 1, by omega⟩
    obtain ⟨g₂, rfl⟩ : ∃ g, f₂ = g + 1 := ⟨f₂ - 1, by omega⟩
    simp only [getQuasiDiagF]
    by_cases hi : i < n
    · simp [hi]
    · simp only [if_neg hi]
      cases hrec : cluster[i - n]? with
      | none => rfl
      | some lr =>
        have hk : i - n < cluster.length := by
          by_contra hk
          rw [List.getElem?_eq_none (by omega)] at hrec
          cases hrec
        have hgetE : cluster[i - n] = lr := by
          have hx := List.getElem?_eq_getElem hk
          rw [hx] at hrec
          exact Option.some.inj hrec
        have hgg : cluster.get ⟨i - n, hk⟩ = lr := by
          rw [List.get_eq_getElem]
          exact hgetE
        have hchild := hWF (i - n) hk
        rw [hgg] at hchild
        have hn : n ≤ i := Nat.le_of_not_lt hi
        have hl1 : lr.1 < i := by omega
        have hl2 : lr.2 < i := by omega
        show getQuasiDiagF cluster n g₁ lr.1 ++ getQuasiDiagF cluster n g₁ lr.2 =
          getQuasiDiagF cluster n g₂ lr.1 ++ getQuasiDiagF cluster n g₂ lr.2
        rw [ih lr.1 hl1 g₁ g₂ (by omega) (by omega),
          ih lr.2 hl2 g₁ g₂ (by omega) (by omega)]

theorem getQuasiDiag_leaf (cluster : List (ℕ × ℕ)) (n i : ℕ) (hi : i < n) :
    getQuasiDiag cluster n i = [i] := by
  simp [getQuasiDiag, getQuasiDiagF, hi]

theorem getQuasiDiag_node (cluster : List (ℕ × ℕ)) (n : ℕ)
    (hWF : ∀ k (h : k < cluster.length),
      (cluster.get ⟨k, h⟩).1 < n + k ∧ (cluster.get ⟨k, h⟩).2 < n + k)
    (k : ℕ) (hk : k < cluster.length) :
    getQuasiDiag cluster n (n + k) =
      getQuasiDiag cluster n (cluster.get ⟨k, hk⟩).1 ++
        getQuasiDiag cluster n (cluster.get ⟨k, hk⟩).2 := by
  have hni : ¬ (n + k < n) := by omega
  have hchild := hWF k hk
  have hidx : n + k - n = k := by omega
  have hsome : cluster[n + k - n]? = some (cluster.get ⟨k, hk⟩) := by
    rw [hidx, List.getElem?_eq_getElem hk, List.get_eq_getElem]
  show getQuasiDiagF cluster n (n + k + 1) (n + k) = _
  simp only [getQuasiDiagF, if_neg hni, hsome]
  rw [getQuasiDiagF_congr cluster n hWF (cluster.get ⟨k, hk⟩).1 (n + k)
      ((cluster.get ⟨k, hk⟩).1 + 1) hchild.1 (Nat.lt_succ_self _),
    getQuasiDiagF_congr cluster n hWF (cluster.get ⟨k, hk⟩).2 (n + k)
      ((cluster.get ⟨k, hk⟩).2 + 1) hchild.2 (Nat.lt_succ_self _)]
  rfl

/-- The multiset of leaves output below node `i`. -/
def nodeMS (cluster : List (ℕ × ℕ)) (n i : ℕ) : Multiset ℕ :=
  (getQuasiDiag cluster n i : Multiset ℕ)

/-- The node ids not yet consumed as a child by the first `k` merge
records (the "available clusters" after `k` merges of the agglomerative
process). -/
def avail (cluster : List (ℕ × ℕ)) (n k : ℕ) : Finset ℕ :=
  (Finset.range (n + k)).filter
    fun i => (childrenList (cluster.take k)).count i = 0

theorem childrenList_append (a b : List (ℕ × ℕ)) :
    childrenList (a ++ b) = childrenList a ++ childrenList b := by
  simp [childrenList]

theorem childrenList_take_succ (cluster : List (ℕ × ℕ)) (k : ℕ)
    (hk : k < cluster.length) :
    childrenList (cluster.take (k + 1)) =
      childrenList (cluster.take k) ++
        [(cluster.get ⟨k, hk⟩).1, (cluster.get ⟨k, hk⟩).2] := by
  rw [List.take_succ, childrenList_append]
  congr 1
  rw [List.getElem?_eq_getElem hk]
  simp [childrenList, List.get_eq_getElem]

theorem mem_childrenList_take (cluster : List (ℕ × ℕ)) (n : ℕ)
    (hWF : ∀ k (h : k < cluster.length),
      (cluster.get ⟨k, h⟩).1 < n + k ∧ (cluster.get ⟨k, h⟩).2 < n + k)
    (m x : ℕ) (hx : x ∈ childrenList (cluster.take m)) :
    ∃ j, j < m ∧ j < cluster.length ∧ x < n + j := by
  rw [childrenList, List.mem_flatMap] at hx
  obtain ⟨p, hp, hxp⟩ := hx
  obtain ⟨j, hj, hpj⟩ := List.mem_iff_getElem.1 hp
  have hjm : j < m := by
    have h' := hj
    rw [List.length_take] at h'
    omega
  have hjl : j < cluster.length := by
    have h' := hj
    rw [List.length_take] at h'
    omega
  have hpe : cluster.get ⟨j, hjl⟩ = p := by
    rw [List.get_eq_getElem]
    rw [← hpj]
    exact (List.getElem_take _).symm
  have hchild := hWF j hjl
  rw [hpe] at hchild
  refine ⟨j, hjm, hjl, ?_⟩
  have hxor : x = p.1 ∨ x = p.2 := by simpa using hxp
  rcases hxor with rfl | rfl
  · exact hchild.1
  · exact hchild.2

theorem avail_zero (cluster : List (ℕ × ℕ)) (n : ℕ) :
    avail cluster n 0 = Finset.range n := by
  simp [avail, childrenList]

theorem sum_singleton_multiset (m : ℕ) :
    (Finset.range m).sum (fun i => ({i} : Multiset ℕ)) = Multiset.range m := by
  induction m with
  | zero => rfl
  | succ m ih =>
    rw [Finset.sum_range_succ, ih, Multiset.range_succ, add_comm,
      Multiset.singleton_add]

/-- The availability invariant: after any number `k ≤ n - 1` of merges,
the leaf multisets of the available nodes partition `0..n-1` exactly. -/
theorem avail_sum_invariant (cluster : List (ℕ × ℕ)) (n : ℕ)
    (h : StrictWellFormed cluster n) :
    ∀ k, k ≤ n - 1 →
      (avail cluster n k).sum (nodeMS cluster n) = Multiset.range n := by
  have hlen := h.length_eq
  have hn2 := h.two_le
  intro k
  induction k with
  | zero =>
    intro _
    rw [avail_zero]
    rw [Finset.sum_congr rfl
      (fun i hi => show nodeMS cluster n i = ({i} : Multiset ℕ) by
        rw [nodeMS, getQuasiDiag_leaf cluster n i (Finset.mem_range.1 hi)]
        rfl)]
    exact sum_singleton_multiset n
  | succ k ih =>
    intro hk1
    have hinv := ih (by omega)
    have hkl : k < cluster.length := by omega
    have hchild := h.child_lt k hkl
    have hdecomp := childrenList_take_succ cluster k hkl
    have hsplit : childrenList cluster =
        childrenList (cluster.take (k + 1)) ++
          childrenList (cluster.drop (k + 1)) := by
      conv_lhs => rw [← List.take_append_drop (k + 1) cluster]
      exact childrenList_append _ _
    have hltot : (childrenList cluster).count (cluster.get ⟨k, hkl⟩).1 = 1 :=
      h.child_once _ (by omega)
    have hrtot : (childrenList cluster).count (cluster.get ⟨k, hkl⟩).2 = 1 :=
      h.child_once _ (by omega)
    rw [hsplit, List.count_append, hdecomp, List.count_append] at hltot hrtot
    have hlself : 1 ≤ ([(cluster.get ⟨k, hkl⟩).1,
        (cluster.get ⟨k, hkl⟩).2].count (cluster.get ⟨k, hkl⟩).1) :=
      List.count_pos_iff_mem.2 (List.mem_cons_self _ _)
    have hrself : 1 ≤ ([(cluster.get ⟨k, hkl⟩).1,
        (cluster.get ⟨k, hkl⟩).2].count (cluster.get ⟨k, hkl⟩).2) :=
      List.count_pos_iff_mem.2 (by simp)
    have hzl : (childrenList (cluster.take k)).count
        (cluster.get ⟨k, hkl⟩).1 = 0 := by omega
    have hzr : (childrenList (cluster.take k)).count
        (cluster.get ⟨k, hkl⟩).2 = 0 := by omega
    have hlr : (cluster.get ⟨k, hkl⟩).1 ≠ (cluster.get ⟨k, hkl⟩).2 := by
      intro he
      rw [he] at hltot
      have : ([(cluster.get ⟨k, hkl⟩).2, (cluster.get ⟨k, hkl⟩).2].count
          (cluster.get ⟨k, hkl⟩).2) = 2 := by
        simp [List.count_cons]
      omega
    have hlmem : (cluster.get ⟨k, hkl⟩).1 ∈ avail cluster n k := by
      rw [avail, Finset.mem_filter, Finset.mem_range]
      exact ⟨by omega, hzl⟩
    have hrmem : (cluster.get ⟨k, hkl⟩).2 ∈ avail cluster n k := by
      rw [avail, Finset.mem_filter, Finset.mem_range]
      exact ⟨by omega, hzr⟩
    have havail : avail cluster n (k + 1) =
        insert (n + k) (((avail cluster n k).erase
          (cluster.get ⟨k, hkl⟩).1).erase (cluster.get ⟨k, hkl⟩).2) := by
      ext i
      rw [avail, Finset.mem_filter, Finset.mem_range, Finset.mem_insert,
        Finset.mem_erase, Finset.mem_erase, avail, Finset.mem_filter,
        Finset.mem_range]
      constructor
      · rintro ⟨hilt, hic⟩
        rw [hdecomp, List.count_append] at hic
        have hctk : (childrenList (cluster.take k)).count i = 0 := by omega
        have hilr : ([(cluster.get ⟨k, hkl⟩).1,
            (cluster.get ⟨k, hkl⟩).2].count i) = 0 := by omega
        have hinotin : i ∉ [(cluster.get ⟨k, hkl⟩).1,
            (cluster.get ⟨k, hkl⟩).2] := by
          rw [← List.count_eq_zero]
          exact hilr
        have hil : i ≠ (cluster.get ⟨k, hkl⟩).1 := by
          intro he
          exact hinotin (he ▸ List.mem_cons_self _ _)
        have hir : i ≠ (cluster.get ⟨k, hkl⟩).2 := by
          intro he
          refine hinotin ?_
          rw [he]
          simp
        by_cases hink : i = n + k
        · exact Or.inl hink
        · exact Or.inr ⟨hir, hil, by omega, hctk⟩
      · rintro (rfl | ⟨hir, hil, hilt, hct⟩)
        · refine ⟨by omega, ?_⟩
          rw [List.count_eq_zero]
          intro hmem
          obtain ⟨j, hj1, hj2, hbound⟩ :=
            mem_childrenList_take cluster n h.child_lt (k + 1) (n + k) hmem
          omega
        · refine ⟨by omega, ?_⟩
          rw [hdecomp, List.count_append]
          have hz2 : ([(cluster.get ⟨k, hkl⟩).1,
              (cluster.get ⟨k, hkl⟩).2].count i) = 0 := by
            rw [List.count_eq_zero]
            intro hmem
            rcases (by simpa using hmem :
                i = (cluster.get ⟨k, hkl⟩).1 ∨ i = (cluster.get ⟨k, hkl⟩).2)
              with he | he
            · exact hil he
            · exact hir he
          omega
    have hnode : nodeMS cluster n (n + k) =
        nodeMS cluster n (cluster.get ⟨k, hkl⟩).1 +
          nodeMS cluster n (cluster.get ⟨k, hkl⟩).2 := by
      rw [nodeMS, getQuasiDiag_node cluster n h.child_lt k hkl, nodeMS, nodeMS]
      exact Multiset.coe_add _ _
    have hsub : ((avail cluster n k).erase
        (cluster.get ⟨k, hkl⟩).1).erase (cluster.get ⟨k, hkl⟩).2 ⊆
        avail cluster n k :=
      (Finset.erase_subset _ _).trans (Finset.erase_subset _ _)
    have hnk_notin : n + k ∉ ((avail cluster n k).erase
        (cluster.get ⟨k, hkl⟩).1).erase (cluster.get ⟨k, hkl⟩).2 := by
      intro hmem
      have := hsub hmem
      rw [avail, Finset.mem_filter, Finset.mem_range] at this
      omega
    have hrmem' : (cluster.get ⟨k, hkl⟩).2 ∈
        (avail cluster n k).erase (cluster.get ⟨k, hkl⟩).1 :=
      Finset.mem_erase.2 ⟨fun he => hlr he.symm, hrmem⟩
    rw [havail, Finset.sum_insert hnk_notin, hnode, add_assoc,
      Finset.add_sum_erase _ _ hrmem', Finset.add_sum_erase _ _ hlmem]
    exact hinv

/-- After all `n - 1` merges only the root `2n - 2` is available. -/
theorem avail_last (cluster : List (ℕ × ℕ)) (n : ℕ)
    (h : StrictWellFormed cluster n) :
    avail cluster n (n - 1) = {2 * n - 2} := by
  have hn2 := h.two_le
  have hlen := h.length_eq
  ext i
  rw [avail, Finset.mem_filter, Finset.mem_range, Finset.mem_singleton]
  have htake : cluster.take (n - 1) = cluster :=
    List.take_of_length_le (by omega)
  rw [htake]
  constructor
  · rintro ⟨hilt, hic⟩
    by_contra hne
    have hsmall : i < 2 * n - 2 := by omega
    have := h.child_once i hsmall
    omega
  · rintro rfl
    refine ⟨by omega, ?_⟩
    rw [List.count_eq_zero]
    intro hmem
    have hmem' : 2 * n - 2 ∈ childrenList (cluster.take cluster.length) := by
      rw [List.take_length]
      exact hmem
    obtain ⟨j, hj1, hj2, hbound⟩ :=
      mem_childrenList_take cluster n h.child_lt cluster.length (2 * n - 2) hmem'
    omega

/-- The quasi-diagonal traversal of a strictly well-formed merge tree from
the root is a permutation of `0..n-1`. -/
theorem quasiDiag_perm (cluster : List (ℕ × ℕ)) (n : ℕ)
    (h : StrictWellFormed cluster n) :
    (getQuasiDiag cluster n (2 * n - 2)).Perm (List.range n) := by
  have hinv := avail_sum_invariant cluster n h (n - 1) le_rfl
  rw [avail_last cluster n h, Finset.sum_singleton, nodeMS] at hinv
  rw [← Multiset.coe_eq_coe]
  rw [hinv]
  rfl

/-- **C2 counterexample**: the merge tree `[(0, 0)]` over 2 leaves is
well-formed exactly as the claim states well-formedness (child ids are
valid node ids below the record's own id 2), yet the traversal from the
root returns `[0, 0]` — index 1 is missing and index 0 occurs twice, so
the output is not a permutation of `0..1`. -/
theorem wellFormedTree_not_sufficient :
    WellFormedTree [(0, 0)] 2 ∧ getQuasiDiag [(0, 0)] 2 2 = [0, 0] ∧
      (getQuasiDiag [(0, 0)] 2 2).count 1 = 0 ∧
      ¬ (getQuasiDiag [(0, 0)] 2 2).Perm (List.range 2) := by
  refine ⟨⟨by norm_num, by decide, by decide⟩, by decide, by decide, by decide⟩

/-- **C2 (amended)**: for every merge tree that is well-formed in the full
scipy sense — `n - 1` records over `n ≥ 2` leaves, children below their
parent's id, and every node id other than the root consumed as a child by
exactly one record — `_getQuasiDiag` called on the root id `2n - 2`
returns a sequence of length `n` that contains each index `0..n-1` exactly
once (a permutation). -/
theorem quasiDiag_perm_of_strictWF (cluster : List (ℕ × ℕ)) (n : ℕ)
    (h : StrictWellFormed cluster n) :
    (getQuasiDiag cluster n (2 * n - 2)).Perm (List.range n) ∧
      (getQuasiDiag cluster n (2 * n - 2)).length = n ∧
      ∀ x < n, (getQuasiDiag cluster n (2 * n - 2)).count x = 1 := by
  have hp := quasiDiag_perm cluster n h
  refine ⟨hp, ?_, ?_⟩
  · rw [hp.length_eq, List.length_range]
  · intro x hx
    rw [hp.count_eq]
    exact List.count_eq_one_of_mem (List.nodup_range n)
      (List.mem_range.2 hx)

/-- Witness for the amended C2 at the 2-leaf tree `[(0, 1)]`. -/
theorem quasiDiag_perm_of_strictWF_witness :
    StrictWellFormed [(0, 1)] 2 ∧
      (getQuasiDiag [(0, 1)] 2 2).Perm (List.range 2) := by
  have h : StrictWellFormed [(0, 1)] 2 :=
    ⟨⟨by norm_num, by decide, by decide⟩, by decide⟩
  exact ⟨h, (quasiDiag_perm_of_strictWF [(0, 1)] 2 h).1⟩

end HRP
